import Mathlib

/-!
Verification of the PageRank engine in `PSETs/PSET2/pagerank/pagerank.py`.

The Python program works with dictionaries (`corpus`, distributions, rank
tables) and sets of page names.  We embed dictionaries as association lists
`List (Page × β)` — Python dicts preserve insertion order, and lookups see
the first binding — and sets of pages as `List Page` (the claims we settle
never depend on a set's iteration order: sums are taken in `ℚ`, where
addition is commutative, and all observations go through key lookup).
Real numbers are embedded as `ℚ`: the program's arithmetic on its
distributions is exact in this model, so "sums to 1.0 within tolerance"
statements become exact equalities.
-/

abbrev Page := String

/-- A Python dict with `Page` keys, as an insertion-ordered association list. -/
abbrev Dict (β : Type) := List (Page × β)

/-- `corpus`: page → list of pages it links to (`crawl`'s output). -/
abbrev Corpus := Dict (List Page)

/-- A probability distribution / rank table: page → weight. -/
abbrev Distribution := Dict ℚ

/-- Python dict lookup `d[k]`: the first binding of the key wins. -/
def dlookup {β : Type} : Dict β → Page → Option β
  | [], _ => none
  | kv :: rest, p => if kv.1 = p then some kv.2 else dlookup rest p

/-- Sum of a distribution's values (`sum(d.values())`). -/
def distSum (d : Distribution) : ℚ := (d.map Prod.snd).sum

/-- Well-formedness of a corpus as `crawl` produces it: keys are distinct
(dict keys), each value is a set (no duplicates), and every link target is
itself a corpus key (`crawl` filters links to corpus members). -/
def corpusWF (corpus : Corpus) : Prop :=
  (corpus.map Prod.fst).Nodup ∧
    ∀ kv ∈ corpus, kv.2.Nodup ∧ ∀ t ∈ kv.2, t ∈ corpus.map Prod.fst

instance (corpus : Corpus) : Decidable (corpusWF corpus) := by
  unfold corpusWF; infer_instance

/-- Python line `if (direct_links == {})` in `transition_model`:
`direct_links` is a `set`, while `{}` denotes the empty *dict*.  In Python a
set never compares equal to a dict, so this test is always `False`, whatever
the set contains — the dangling-page branch guarded by it is dead code. -/
def set_eq_empty_dict (_links : List Page) : Bool := false

/-- `transition_model(corpus, page, damping_factor)`.

`all_pages = corpus.keys()`; `direct_links = corpus[page]` (we use `getD []`
— in the program `page` is always a corpus key, otherwise Python raises
`KeyError`).  The dead dangling branch returns the uniform distribution.
Otherwise each direct link is paired with `damping_factor/len(direct_links)`
(`dict(zip(direct_links, direct_weights))`), the remaining pages
(`set(all_pages) - set(direct_links)`) get `0.0`, and finally
`(1-damping_factor)/len(all_pages)` is added to every entry. -/
def transition_model (corpus : Corpus) (page : Page) (damping_factor : ℚ) : Distribution :=
  let all_pages := corpus.map Prod.fst
  let direct_links := (dlookup corpus page).getD []
  if set_eq_empty_dict direct_links then
    all_pages.map fun p => (p, 1 / (all_pages.length : ℚ))
  else
    let output := direct_links.map fun p =>
      (p, damping_factor / (direct_links.length : ℚ))
    let rest := all_pages.filter fun p => !(direct_links.contains p)
    let output := output ++ rest.map fun p => (p, (0 : ℚ))
    let addition := (1 - damping_factor) / (all_pages.length : ℚ)
    output.map fun kv => (kv.1, kv.2 + addition)

/-- The running-sum loop of `cdf(weights)`.  Each step computes
`cumsum / total`; Python raises `ZeroDivisionError` when `total == 0`
(floats: `0.0 / 0.0` raises), modelled as `none`.  On an empty weight list
the loop body never runs, so no division happens and `[]` is returned. -/
def cdf_go (total : ℚ) : ℚ → List ℚ → Option (List ℚ)
  | _, [] => some []
  | cumsum, w :: ws =>
    if total = 0 then none
    else
      match cdf_go total (cumsum + w) ws with
      | none => none
      | some rest => some (((cumsum + w) / total) :: rest)

/-- `cdf(weights)`: `total = sum(weights)`, running sum starts at `0`. -/
def cdf (weights : List ℚ) : Option (List ℚ) :=
  cdf_go weights.sum 0 weights

/-- The pure value of the `cdf` loop when no division by zero occurs. -/
def cdf_vals (total : ℚ) : ℚ → List ℚ → List ℚ
  | _, [] => []
  | cumsum, w :: ws => ((cumsum + w) / total) :: cdf_vals total (cumsum + w) ws

/-- The loop of Python's `bisect.bisect(a, x)` (`bisect_right`):
`while lo < hi: mid = (lo+hi)//2; if x < a[mid]: hi = mid else: lo = mid+1`,
returning `lo`.  The interval shrinks every iteration, so fuel
`a.length + 1` always suffices. -/
def bisect_loop (a : List ℚ) (x : ℚ) : ℕ → ℕ → ℕ → ℕ
  | 0, lo, _ => lo
  | fuel + 1, lo, hi =>
    if lo < hi then
      let mid := (lo + hi) / 2
      if x < a.getD mid 0 then bisect_loop a x fuel lo mid
      else bisect_loop a x fuel (mid + 1) hi
    else lo

/-- `bisect.bisect(a, x)` with `lo = 0`, `hi = len(a)`. -/
def bisect (a : List ℚ) (x : ℚ) : ℕ := bisect_loop a x (a.length + 1) 0 a.length

/-- `choice(population, weights)` with the random draw `x = random.random()`
made explicit.  `none` models a raised exception: the `assert` on the
lengths, the `ZeroDivisionError` from `cdf`, or an `IndexError` from
`population[idx]` (`List.get?` out of range).  Note there is no clamping of
`idx`. -/
def choice (population : List Page) (weights : List ℚ) (x : ℚ) : Option Page :=
  if population.length = weights.length then
    match cdf weights with
    | none => none
    | some cdf_vals => population.get? (bisect cdf_vals x)
  else none

/-- One `counts[page] += 1` on a `collections.defaultdict(int)`: if the key
is present its (first, and in this program only) binding is incremented,
otherwise a fresh binding with count `1` is appended (defaultdict creates
missing keys with the default `0`, then the increment makes it `1`). -/
def bump (counts : Dict ℕ) (p : Page) : Dict ℕ :=
  if counts.any fun kv => kv.1 = p then
    counts.map fun kv => if kv.1 = p then (kv.1, kv.2 + 1) else kv
  else counts ++ [(p, 1)]

/-- The `for i in range(n)` loop of `sample_pagerank`, with the sequence of
random draws `xs` (one per iteration) made explicit; returns the list of
pages drawn, in order.  `none` models an exception escaping from `choice`. -/
def walk (corpus : Corpus) (damping_factor : ℚ) : Page → List ℚ → Option (List Page)
  | _, [] => some []
  | page, x :: xs =>
    let model := transition_model corpus page damping_factor
    match choice (model.map Prod.fst) (model.map Prod.snd) x with
    | none => none
    | some next =>
      match walk corpus damping_factor next xs with
      | none => none
      | some visits => some (next :: visits)

/-- `sample_pagerank(corpus, damping_factor, n)` with the randomness made
explicit: `start` is the `random.choice(keys)` starting page and `xs` the
`n` uniform draws consumed by `choice` (so `n = xs.length`).  The counter
starts empty — the starting page is not counted — and the result maps each
counted page to `count / n`. -/
def sample_pagerank (corpus : Corpus) (damping_factor : ℚ) (start : Page)
    (xs : List ℚ) : Option Distribution :=
  match walk corpus damping_factor start xs with
  | none => none
  | some visits =>
    some ((visits.foldl bump []).map fun kv => (kv.1, (kv.2 : ℚ) / (xs.length : ℚ)))

/-- Module constant `EPSILON = 0.001`. -/
def EPSILON : ℚ := 1 / 1000

/-- `is_converged(prev_pr, next_pr)`: `all(abs(next_pr[k] - v) <= EPSILON
for (k, v) in sorted(prev_pr.items()))`.  The `sorted` cannot change the
value of `all`, so we fold over `prev_pr` in place; `next_pr[k]` is modelled
with `getD 0` (in the program `next_pr` has the same keys as `prev_pr`). -/
def is_converged (prev_pr next_pr : Distribution) : Bool :=
  prev_pr.all fun kv => |(dlookup next_pr kv.1).getD 0 - kv.2| ≤ EPSILON

/-- One `reverse_corpus[page].add(k)`: append `k` to the set held at key
`page` unless already present.  A `page` that is not a key would make the
Python code raise `KeyError`; under the corpus invariant every link target
is a key, so the situation does not arise (here such an add is a no-op). -/
def add_edge (rev : Dict (List Page)) (page k : Page) : Dict (List Page) :=
  rev.map fun kv =>
    if kv.1 = page then (kv.1, if kv.2.contains k then kv.2 else kv.2 ++ [k]) else kv

/-- The inner loop `for page in v: reverse_corpus[page].add(k)`. -/
def add_edges (rev : Dict (List Page)) (k : Page) (v : List Page) : Dict (List Page) :=
  v.foldl (fun acc page => add_edge acc page k) rev

/-- `reverse_corpus = {k: set() for k in keys}` followed by
`for k, v in corpus.items(): for page in v: reverse_corpus[page].add(k)`. -/
def build_reverse (corpus : Corpus) : Dict (List Page) :=
  corpus.foldl (fun acc kv => add_edges acc kv.1 kv.2)
    (corpus.map fun kv => (kv.1, ([] : List Page)))

/-- One synchronous sweep of `iterate_pagerank`'s `while` loop (before
normalization): for each key `k` of `prev_pagerank`,
`next_pagerank[k] = random_val + damping_factor * tmp` where `tmp` sums
`prev_pagerank[page] / len(corpus[page])` over `page in reverse_corpus[k]`.
The reverse index is built once before the loop in the program; rebuilding
it here is the same value (it is a pure function of the corpus).  The two
lookups are `getD`-defaulted; in the program they always succeed. -/
def sweep (corpus : Corpus) (damping_factor : ℚ) (prev_pagerank : Distribution) :
    Distribution :=
  let keys := corpus.map Prod.fst
  let random_val := (1 - damping_factor) / (keys.length : ℚ)
  let reverse_corpus := build_reverse corpus
  prev_pagerank.map fun kv =>
    (kv.1, random_val + damping_factor *
      (((dlookup reverse_corpus kv.1).getD []).map fun page =>
        (dlookup prev_pagerank page).getD 0 /
          (((dlookup corpus page).getD []).length : ℚ)).sum)

/-- The renormalization step: `summ = sum(next_pagerank.values());
next_pagerank = {k: v / summ for (k, v) in next_pagerank.items()}`. -/
def renormalize (next_pagerank : Distribution) : Distribution :=
  let summ := distSum next_pagerank
  next_pagerank.map fun kv => (kv.1, kv.2 / summ)

/-- The `while True` loop of `iterate_pagerank`, modelled with fuel (`none`
means the loop did not terminate within `fuel` sweeps).  On convergence the
program `break`s *before* `prev_pagerank = next_pagerank`, so it is the
previous table that is returned. -/
def iterate_aux (corpus : Corpus) (damping_factor : ℚ) :
    ℕ → Distribution → Option Distribution
  | 0, _ => none
  | fuel + 1, prev_pagerank =>
    let next_pagerank := renormalize (sweep corpus damping_factor prev_pagerank)
    if is_converged prev_pagerank next_pagerank then some prev_pagerank
    else iterate_aux corpus damping_factor fuel next_pagerank

/-- `prev_pagerank = dict(zip(keys, np.ones(len(keys)) / float(len(keys))))`. -/
def init_rank (corpus : Corpus) : Distribution :=
  corpus.map fun kv => (kv.1, 1 / (corpus.length : ℚ))

/-- `iterate_pagerank(corpus, damping_factor)`, with explicit fuel for the
`while True` loop. -/
def iterate_pagerank (corpus : Corpus) (damping_factor : ℚ) (fuel : ℕ) :
    Option Distribution :=
  iterate_aux corpus damping_factor fuel (init_rank corpus)

/-! ### Basic lookup lemmas -/

@[simp] theorem dlookup_nil {β : Type} (p : Page) : dlookup ([] : Dict β) p = none := rfl

@[simp] theorem dlookup_cons {β : Type} (kv : Page × β) (l : Dict β) (p : Page) :
    dlookup (kv :: l) p = if kv.1 = p then some kv.2 else dlookup l p := rfl

theorem dlookup_append {β : Type} (l₁ l₂ : Dict β) (p : Page) :
    dlookup (l₁ ++ l₂) p =
      match dlookup l₁ p with
      | some v => some v
      | none => dlookup l₂ p := by
  induction l₁ with
  | nil => simp
  | cons kv rest ih =>
    by_cases h : kv.1 = p <;> simp [h, ih]

/-- Lookup through a value-only rewrite of a dict. -/
theorem dlookup_map_value {β γ : Type} (g : β → γ) (l : Dict β) (p : Page) :
    dlookup (l.map fun kv => (kv.1, g kv.2)) p = (dlookup l p).map g := by
  induction l with
  | nil => simp
  | cons kv rest ih =>
    by_cases h : kv.1 = p <;> simp [h, ih]

/-- Lookup through a key-determined rewrite of a dict's values. -/
theorem dlookup_map_keyfn {β γ : Type} (g : Page → γ) (l : Dict β) (p : Page) :
    dlookup (l.map fun kv => (kv.1, g kv.1)) p = (dlookup l p).map fun _ => g p := by
  induction l with
  | nil => simp
  | cons kv rest ih =>
    by_cases h : kv.1 = p
    · simp [h]
    · simp [h, ih]

theorem dlookup_eq_none {β : Type} (l : Dict β) (p : Page) :
    dlookup l p = none ↔ p ∉ l.map Prod.fst := by
  induction l with
  | nil => simp
  | cons kv rest ih =>
    by_cases h : kv.1 = p
    · simp [h]
    · rw [dlookup_cons, if_neg h, ih]
      simp only [List.map_cons, List.mem_cons]
      constructor
      · intro hn hm
        rcases hm with he | hm
        · exact h he.symm
        · exact hn hm
      · intro hn hm
        exact hn (Or.inr hm)

theorem dlookup_mem {β : Type} {l : Dict β} {p : Page} {v : β}
    (h : dlookup l p = some v) : (p, v) ∈ l := by
  induction l with
  | nil => simp at h
  | cons kv rest ih =>
    by_cases hk : kv.1 = p
    · rw [dlookup_cons, if_pos hk] at h
      have hv : v = kv.2 := (Option.some_inj.mp h).symm
      rw [← hk, hv]
      exact List.mem_cons_self _ _
    · rw [dlookup_cons, if_neg hk] at h
      exact List.mem_cons_of_mem _ (ih h)

theorem dlookup_isSome {β : Type} (l : Dict β) (p : Page) :
    (dlookup l p).isSome = true ↔ p ∈ l.map Prod.fst := by
  cases hd : dlookup l p with
  | none =>
    simp only [Option.isSome_none]
    constructor
    · intro h; exact absurd h (by simp)
    · intro hm; exact absurd hm ((dlookup_eq_none l p).mp hd)
  | some v =>
    simp only [Option.isSome_some, true_iff]
    exact List.mem_map_of_mem Prod.fst (dlookup_mem hd)

theorem mem_dlookup {β : Type} {l : Dict β} {p : Page} {v : β}
    (hnd : (l.map Prod.fst).Nodup) (h : (p, v) ∈ l) : dlookup l p = some v := by
  induction l with
  | nil => simp at h
  | cons kv rest ih =>
    simp only [List.map_cons, List.nodup_cons] at hnd
    rcases List.mem_cons.mp h with he | hm
    · rw [← he]; simp
    · have hne : kv.1 ≠ p := by
        intro heq
        exact hnd.1 (by rw [heq]; exact List.mem_map_of_mem Prod.fst hm)
      rw [dlookup_cons, if_neg hne]
      exact ih hnd.2 hm

/-! ### `cdf` and `bisect` lemmas -/

theorem cdf_go_eq_vals (total : ℚ) (h : total ≠ 0) :
    ∀ (cumsum : ℚ) (ws : List ℚ),
      cdf_go total cumsum ws = some (cdf_vals total cumsum ws) := by
  intro cumsum ws
  induction ws generalizing cumsum with
  | nil => rfl
  | cons w ws ih => simp [cdf_go, cdf_vals, h, ih]

theorem cdf_vals_length (total cumsum : ℚ) (ws : List ℚ) :
    (cdf_vals total cumsum ws).length = ws.length := by
  induction ws generalizing cumsum with
  | nil => rfl
  | cons w ws ih => simp [cdf_vals, ih]

/-- The last cumulative value is the whole remaining mass over the total. -/
theorem cdf_vals_getD_last (total : ℚ) :
    ∀ (cumsum : ℚ) (ws : List ℚ), ws ≠ [] →
      (cdf_vals total cumsum ws).getD (ws.length - 1) 0 = (cumsum + ws.sum) / total := by
  intro cumsum ws
  induction ws generalizing cumsum with
  | nil => intro h; exact absurd rfl h
  | cons w ws ih =>
    intro _
    cases ws with
    | nil => simp [cdf_vals]
    | cons w' ws' =>
      have hne : (w' :: ws') ≠ [] := by simp
      have h2 := ih (cumsum + w) hne
      simp only [cdf_vals, List.length_cons, Nat.add_sub_cancel] at h2 ⊢
      rw [List.getD_cons_succ, h2]
      simp only [List.sum_cons]
      ring

theorem cdf_go_none (total cumsum : ℚ) (w : ℚ) (ws : List ℚ) (h : total = 0) :
    cdf_go total cumsum (w :: ws) = none := by
  simp [cdf_go, h]

theorem bisect_loop_le (a : List ℚ) (x : ℚ) :
    ∀ (fuel lo hi : ℕ), lo ≤ hi → bisect_loop a x fuel lo hi ≤ hi := by
  intro fuel
  induction fuel with
  | zero => intro lo hi h; exact h
  | succ fuel ih =>
    intro lo hi h
    by_cases hlt : lo < hi
    · rw [bisect_loop, if_pos hlt]
      by_cases hx : x < a.getD ((lo + hi) / 2) 0
      · simp only [hx, if_true]
        exact le_trans (ih lo ((lo + hi) / 2) (by omega)) (by omega)
      · simp only [hx, if_false]
        exact ih ((lo + hi) / 2 + 1) hi (by omega)
    · rw [bisect_loop, if_neg hlt]
      exact h

/-- If `x` is strictly below the last element, the binary search cannot
return the out-of-range position `a.length`. -/
theorem bisect_loop_lt_len (a : List ℚ) (x : ℚ)
    (hlast : x < a.getD (a.length - 1) 0) :
    ∀ (fuel lo : ℕ), lo < a.length →
      bisect_loop a x fuel lo a.length < a.length := by
  intro fuel
  induction fuel with
  | zero => intro lo h; exact h
  | succ fuel ih =>
    intro lo h
    rw [bisect_loop, if_pos h]
    by_cases hx : x < a.getD ((lo + a.length) / 2) 0
    · simp only [hx, if_true]
      have hle := bisect_loop_le a x fuel lo ((lo + a.length) / 2) (by omega)
      omega
    · simp only [hx, if_false]
      have hmid_ne : (lo + a.length) / 2 ≠ a.length - 1 := by
        intro he
        rw [he] at hx
        exact hx hlast
      exact ih ((lo + a.length) / 2 + 1) (by omega)

theorem bisect_lt_length (a : List ℚ) (x : ℚ) (hlen : 0 < a.length)
    (hlast : x < a.getD (a.length - 1) 0) : bisect a x < a.length :=
  bisect_loop_lt_len a x hlast (a.length + 1) 0 hlen

/-! ### `choice` lemmas -/

/-- When the lengths agree and the weights have non-zero total, `choice`
returns an element of the population for every draw `x < 1`: in exact
arithmetic the final cumulative value is `total/total = 1 > x`, so the
bisection index stays in range. -/
theorem choice_some_mem (population : List Page) (weights : List ℚ) (x : ℚ)
    (hlen : population.length = weights.length) (hsum : weights.sum ≠ 0)
    (hx : x < 1) : ∃ r, choice population weights x = some r ∧ r ∈ population := by
  have hwne : weights ≠ [] := by
    intro h
    rw [h] at hsum
    exact hsum rfl
  have hcdf : cdf weights = some (cdf_vals weights.sum 0 weights) :=
    cdf_go_eq_vals weights.sum hsum 0 weights
  have hlast : (cdf_vals weights.sum 0 weights).getD
      ((cdf_vals weights.sum 0 weights).length - 1) 0 = 1 := by
    rw [cdf_vals_length, cdf_vals_getD_last weights.sum 0 weights hwne, zero_add,
      div_self hsum]
  have hlenv : 0 < (cdf_vals weights.sum 0 weights).length := by
    rw [cdf_vals_length]
    cases weights with
    | nil => exact absurd rfl hwne
    | cons w ws => simp
  have hidx : bisect (cdf_vals weights.sum 0 weights) x <
      (cdf_vals weights.sum 0 weights).length :=
    bisect_lt_length _ x hlenv (by rw [hlast]; exact hx)
  have hidx' : bisect (cdf_vals weights.sum 0 weights) x < population.length := by
    rw [hlen, ← cdf_vals_length weights.sum 0 weights]
    exact hidx
  refine ⟨population.get ⟨_, hidx'⟩, ?_, List.get_mem _ _ _⟩
  rw [choice, if_pos hlen, hcdf]
  exact List.get?_eq_get hidx'

theorem choice_none_of_length (population : List Page) (weights : List ℚ) (x : ℚ)
    (h : population.length ≠ weights.length) : choice population weights x = none := by
  rw [choice, if_neg h]

theorem choice_none_of_zero_sum (population : List Page) (weights : List ℚ) (x : ℚ)
    (h : weights.sum = 0) : choice population weights x = none := by
  by_cases hlen : population.length = weights.length
  · cases weights with
    | nil =>
      have hpop : population = [] := List.length_eq_zero.mp hlen
      subst hpop
      rfl
    | cons w ws =>
      rw [choice, if_pos hlen, cdf, cdf_go_none _ _ _ _ h]
  · exact choice_none_of_length population weights x hlen

/-! ### Distribution-sum helper lemmas -/

theorem distSum_nil : distSum [] = 0 := rfl

theorem distSum_append (d₁ d₂ : Distribution) :
    distSum (d₁ ++ d₂) = distSum d₁ + distSum d₂ := by
  simp [distSum]

theorem distSum_add_const (l : Distribution) (a : ℚ) :
    distSum (l.map fun kv => (kv.1, kv.2 + a)) = distSum l + l.length * a := by
  induction l with
  | nil => simp [distSum]
  | cons kv rest ih =>
    simp only [List.map_cons, distSum, List.sum_cons, List.length_cons] at ih ⊢
    rw [ih]
    push_cast
    ring

theorem distSum_const_pairs (L : List Page) (c : ℚ) :
    distSum (L.map fun p => (p, c)) = L.length * c := by
  induction L with
  | nil => simp [distSum]
  | cons p rest ih =>
    simp only [List.map_cons, distSum, List.sum_cons, List.length_cons] at ih ⊢
    rw [ih]
    push_cast
    ring

/-- Lookup in a constant-weight association of a page list. -/
theorem dlookup_const_pairs (L : List Page) (c : ℚ) (q : Page) :
    dlookup (L.map fun p => (p, c)) q = if q ∈ L then some c else none := by
  induction L with
  | nil => simp
  | cons p rest ih =>
    by_cases h : p = q
    · simp [h]
    · simp only [List.map_cons, dlookup_cons, if_neg h, ih, List.mem_cons]
      have : ¬q = p := fun he => h he.symm
      simp [this]

/-! ### `transition_model` lemmas -/

/-- The guard `direct_links == {}` is always false, so `transition_model`
always takes the linked-weights branch. -/
theorem transition_model_eq (corpus : Corpus) (page : Page) (d : ℚ) :
    transition_model corpus page d =
      (let all_pages := corpus.map Prod.fst
       let direct_links := (dlookup corpus page).getD []
       ((direct_links.map fun p => (p, d / (direct_links.length : ℚ))) ++
          (all_pages.filter fun p => !(direct_links.contains p)).map fun p =>
            (p, (0 : ℚ))).map
        fun kv => (kv.1, kv.2 + (1 - d) / (all_pages.length : ℚ))) := by
  rw [transition_model]
  rfl

/-- The total mass handed to `choice` inside the sampling loop is positive
for `0 < damping < 1` and a non-empty corpus (it is `1` from a page with
links and `1 - damping` from a dangling page — see the dangling-page bug —
but positive either way). -/
theorem distSum_transition_pos (corpus : Corpus) (page : Page) (d : ℚ)
    (hd0 : 0 < d) (hd1 : d < 1) (hc : corpus ≠ []) :
    0 < distSum (transition_model corpus page d) := by
  rw [transition_model_eq]
  simp only []
  set all_pages := corpus.map Prod.fst with hall
  set L := (dlookup corpus page).getD [] with hL
  set rest := all_pages.filter fun p => !(L.contains p) with hrest
  set a := (1 - d) / (all_pages.length : ℚ) with ha
  have hN : 0 < all_pages.length := by
    rw [hall, List.length_map]
    exact List.length_pos.mpr hc
  have hapos : 0 < a := by
    rw [ha]
    exact div_pos (by linarith) (by exact_mod_cast hN)
  rw [distSum_add_const, distSum_append, distSum_const_pairs, distSum_const_pairs]
  by_cases hLe : L = []
  · have hre : rest = all_pages := by
      rw [hrest, hLe]
      simp [List.contains]
    rw [hLe, hre]
    simp only [List.map_nil, List.length_nil, List.length_append, List.length_map]
    have : (0 : ℚ) * (d / 0) + (all_pages.length : ℚ) * 0 = 0 := by ring
    push_cast
    nlinarith [mul_pos (show (0:ℚ) < all_pages.length by exact_mod_cast hN) hapos]
  · have hLlen : 0 < L.length := List.length_pos.mpr hLe
    have hLQ : (L.length : ℚ) ≠ 0 := by
      exact_mod_cast Nat.pos_iff_ne_zero.mp hLlen
    have h1 : (L.length : ℚ) * (d / (L.length : ℚ)) = d := by
      field_simp
    rw [h1]
    have h2 : (0 : ℚ) ≤ (((L.map fun p => (p, d / (L.length : ℚ))) ++
        rest.map fun p => (p, (0 : ℚ))).length : ℚ) * a := by
      positivity
    nlinarith [h2]

/-! ### Walk and visit-counter lemmas -/

/-- Inside the sampling loop, `choice` always succeeds and yields a page of
the model's key list: lengths agree by construction, and the weight total is
positive by `distSum_transition_pos`. -/
theorem walk_some (corpus : Corpus) (d : ℚ) (hd0 : 0 < d) (hd1 : d < 1)
    (hc : corpus ≠ []) :
    ∀ (xs : List ℚ) (page : Page), (∀ x ∈ xs, x < 1) →
      ∃ visits, walk corpus d page xs = some visits ∧ visits.length = xs.length := by
  intro xs
  induction xs with
  | nil => exact fun page _ => ⟨[], rfl, rfl⟩
  | cons x xs ih =>
    intro page hx
    have hmodel := distSum_transition_pos corpus page d hd0 hd1 hc
    obtain ⟨r, hr, _⟩ := choice_some_mem
      ((transition_model corpus page d).map Prod.fst)
      ((transition_model corpus page d).map Prod.snd) x
      (by simp) (ne_of_gt hmodel) (hx x (List.mem_cons_self x xs))
    obtain ⟨visits, hv, hvlen⟩ := ih r fun y hy => hx y (List.mem_cons_of_mem x hy)
    refine ⟨r :: visits, ?_, by simp [hvlen]⟩
    rw [walk]
    simp only [hr, hv]

/-- The value map of one `bump` on the counter dict. -/
theorem dlookup_bump_map (counts : Dict ℕ) (p q : Page) :
    dlookup (counts.map fun kv => if kv.1 = p then (kv.1, kv.2 + 1) else kv) q =
      if q = p then (dlookup counts q).map (· + 1) else dlookup counts q := by
  induction counts with
  | nil => simp
  | cons kv rest ih =>
    by_cases hk : kv.1 = q
    · by_cases hp : q = p
      · simp [hk, hp]
      · have : ¬kv.1 = p := by rw [hk]; exact hp
        simp [hk, hp, this]
    · by_cases hkp : kv.1 = p
      · simp only [List.map_cons, if_pos hkp, dlookup_cons, ih]
        simp [hk]
      · simp only [List.map_cons, if_neg hkp, dlookup_cons, ih]
        simp [hk]

theorem any_key_iff {β : Type} (l : Dict β) (p : Page) :
    (l.any fun kv => kv.1 = p) = true ↔ p ∈ l.map Prod.fst := by
  rw [List.any_eq_true]
  constructor
  · rintro ⟨kv, hmem, hkv⟩
    have : kv.1 = p := by simpa using hkv
    rw [← this]
    exact List.mem_map_of_mem Prod.fst hmem
  · intro h
    rcases List.mem_map.mp h with ⟨kv, hmem, hkv⟩
    exact ⟨kv, hmem, by simpa using hkv⟩

/-- `counts[page] += 1` seen through a lookup. -/
theorem dlookup_bump (counts : Dict ℕ) (p q : Page) :
    dlookup (bump counts p) q =
      if q = p then some ((dlookup counts q).getD 0 + 1) else dlookup counts q := by
  rw [bump]
  by_cases hmem : (counts.any fun kv => kv.1 = p) = true
  · rw [if_pos hmem, dlookup_bump_map]
    by_cases hq : q = p
    · rw [if_pos hq, if_pos hq]
      have hsome : (dlookup counts q).isSome = true := by
        rw [dlookup_isSome]
        rw [hq]
        exact (any_key_iff counts p).mp hmem
      cases hd : dlookup counts q with
      | none => rw [hd] at hsome; simp at hsome
      | some v => simp
    · rw [if_neg hq, if_neg hq]
  · rw [if_neg hmem, dlookup_append]
    by_cases hq : q = p
    · have hnone : dlookup counts q = none := by
        rw [dlookup_eq_none, hq]
        intro hmem'
        exact hmem ((any_key_iff counts p).mpr hmem')
      rw [hnone, if_pos hq]
      simp [hq]
    · rw [if_neg hq]
      cases hd : dlookup counts q with
      | none =>
        have hpq : ¬p = q := fun he => hq he.symm
        simp [hpq]
      | some v => simp

/-- The visit counter after the whole loop: a page's count is its number of
occurrences among the drawn pages, and pages never drawn have no entry. -/
theorem dlookup_foldl_bump :
    ∀ (visits : List Page) (acc : Dict ℕ) (q : Page),
      dlookup (visits.foldl bump acc) q =
        if q ∈ visits ∨ (dlookup acc q).isSome then
          some ((dlookup acc q).getD 0 + visits.count q) else none := by
  intro visits
  induction visits with
  | nil =>
    intro acc q
    simp only [List.foldl_nil, List.not_mem_nil, false_or, List.count_nil]
    cases hd : dlookup acc q with
    | none => simp
    | some v => simp
  | cons v vs ih =>
    intro acc q
    rw [List.foldl_cons, ih (bump acc v) q, dlookup_bump]
    by_cases hq : q = v
    · have hcnt : (v :: vs).count q = vs.count q + 1 := by
        simp [hq, List.count_cons]
      simp only [if_pos hq, hcnt]
      have hmem : q ∈ v :: vs := by rw [hq]; exact List.mem_cons_self v vs
      simp only [hmem, true_or, if_true, Option.isSome_some, or_true,
        Option.getD_some]
      congr 1
      omega
    · have hcnt : (v :: vs).count q = vs.count q := by
        simp [List.count_cons, hq]
      have hmem : q ∈ v :: vs ↔ q ∈ vs := by
        simp [List.mem_cons, hq]
      simp only [if_neg hq, hcnt, hmem]

theorem dlookup_counts (visits : List Page) (q : Page) :
    dlookup (visits.foldl bump []) q =
      if q ∈ visits then some (visits.count q) else none := by
  rw [dlookup_foldl_bump visits [] q]
  simp

/-- Total of the visit counter's values. -/
def sumN (counts : Dict ℕ) : ℕ := (counts.map Prod.snd).sum

theorem map_fst_update (counts : Dict ℕ) (p : Page) :
    ((counts.map fun kv => if kv.1 = p then (kv.1, kv.2 + 1) else kv).map Prod.fst) =
      counts.map Prod.fst := by
  induction counts with
  | nil => rfl
  | cons kv rest ih =>
    by_cases h : kv.1 = p <;> simp [h, ih]

theorem update_id_of_not_mem (counts : Dict ℕ) (p : Page)
    (h : p ∉ counts.map Prod.fst) :
    (counts.map fun kv => if kv.1 = p then (kv.1, kv.2 + 1) else kv) = counts := by
  induction counts with
  | nil => rfl
  | cons kv rest ih =>
    simp only [List.map_cons, List.mem_cons] at h
    push_neg at h
    have hne : ¬kv.1 = p := fun he => h.1 he.symm
    simp only [List.map_cons, if_neg hne, List.cons.injEq, true_and]
    exact ih h.2

theorem sumN_update (counts : Dict ℕ) (p : Page)
    (hnd : (counts.map Prod.fst).Nodup) (hp : p ∈ counts.map Prod.fst) :
    sumN (counts.map fun kv => if kv.1 = p then (kv.1, kv.2 + 1) else kv) =
      sumN counts + 1 := by
  induction counts with
  | nil => simp at hp
  | cons kv rest ih =>
    simp only [List.map_cons, List.nodup_cons] at hnd
    by_cases h : kv.1 = p
    · have hrest : p ∉ rest.map Prod.fst := by rw [← h]; exact hnd.1
      simp only [List.map_cons, if_pos h, sumN, List.map_cons, List.sum_cons,
        update_id_of_not_mem rest p hrest]
      omega
    · have hp' : p ∈ rest.map Prod.fst := by
        rcases List.mem_cons.mp hp with he | hm
        · exact absurd he.symm h
        · exact hm
      have := ih hnd.2 hp'
      simp only [List.map_cons, if_neg h, sumN, List.map_cons, List.sum_cons] at this ⊢
      omega

theorem sumN_bump (counts : Dict ℕ) (p : Page)
    (hnd : (counts.map Prod.fst).Nodup) : sumN (bump counts p) = sumN counts + 1 := by
  rw [bump]
  by_cases hmem : (counts.any fun kv => kv.1 = p) = true
  · rw [if_pos hmem]
    exact sumN_update counts p hnd ((any_key_iff counts p).mp hmem)
  · rw [if_neg hmem]
    simp [sumN]

theorem bump_nodup (counts : Dict ℕ) (p : Page)
    (hnd : (counts.map Prod.fst).Nodup) : ((bump counts p).map Prod.fst).Nodup := by
  rw [bump]
  by_cases hmem : (counts.any fun kv => kv.1 = p) = true
  · rw [if_pos hmem, map_fst_update]
    exact hnd
  · rw [if_neg hmem]
    have hp : p ∉ counts.map Prod.fst := fun h => hmem ((any_key_iff counts p).mpr h)
    simp only [List.map_append, List.map_cons, List.map_nil]
    rw [List.nodup_append]
    refine ⟨hnd, List.nodup_singleton p, ?_⟩
    intro a ha hb
    simp only [List.mem_singleton] at hb
    rw [hb] at ha
    exact hp ha

/-- After the whole loop the counter's values add up to the number of
drawn pages (each iteration increments exactly one counter by one). -/
theorem sumN_foldl_bump :
    ∀ (visits : List Page) (acc : Dict ℕ), (acc.map Prod.fst).Nodup →
      sumN (visits.foldl bump acc) = sumN acc + visits.length := by
  intro visits
  induction visits with
  | nil => intro acc _; simp
  | cons v vs ih =>
    intro acc hnd
    rw [List.foldl_cons, ih (bump acc v) (bump_nodup acc v hnd), sumN_bump acc v hnd]
    simp only [List.length_cons]
    omega

/-- Dividing every counter value by `n` divides the total by `n`. -/
theorem distSum_counts_div (counts : Dict ℕ) (n : ℚ) :
    distSum (counts.map fun kv => (kv.1, (kv.2 : ℚ) / n)) = (sumN counts : ℚ) / n := by
  induction counts with
  | nil => simp [distSum, sumN]
  | cons kv rest ih =>
    simp only [List.map_cons, distSum, List.sum_cons, sumN] at ih ⊢
    rw [ih]
    push_cast
    rw [add_div]

/-! ### Reverse-index lemmas -/

/-- `set.add` puts the element in. -/
theorem mem_addk (l : List Page) (k : Page) :
    k ∈ (if l.contains k then l else l ++ [k]) := by
  by_cases h : l.contains k
  · rw [if_pos h]
    exact List.elem_iff.mp h
  · rw [if_neg h]
    exact List.mem_append_right l (List.mem_singleton.mpr rfl)

/-- Adding an element already present is a no-op, so `set.add` is idempotent. -/
theorem addk_idem (l : List Page) (k : Page) :
    (if ((if l.contains k then l else l ++ [k]).contains k) then
        (if l.contains k then l else l ++ [k])
      else (if l.contains k then l else l ++ [k]) ++ [k]) =
      (if l.contains k then l else l ++ [k]) := by
  have h : ((if l.contains k then l else l ++ [k]).contains k) = true :=
    List.elem_iff.mpr (mem_addk l k)
  rw [if_pos h]

theorem dlookup_add_edge (rev : Dict (List Page)) (page k q : Page) :
    dlookup (add_edge rev page k) q =
      (dlookup rev q).map fun l =>
        if q = page then (if l.contains k then l else l ++ [k]) else l := by
  induction rev with
  | nil => simp [add_edge]
  | cons kv rest ih =>
    rw [add_edge] at ih ⊢
    simp only [List.map_cons]
    by_cases hkp : kv.1 = page
    · by_cases hk : kv.1 = q
      · have hqp : q = page := by rw [← hk, hkp]
        simp [hkp, hk, hqp]
      · simp only [if_pos hkp, dlookup_cons]
        rw [if_neg hk, ih]
        simp [hk]
    · by_cases hk : kv.1 = q
      · have hqp : ¬q = page := by rw [← hk]; exact hkp
        simp [hkp, hk, hqp]
      · simp only [if_neg hkp, dlookup_cons, if_neg hk, ih]

theorem dlookup_add_edges (k : Page) :
    ∀ (v : List Page) (rev : Dict (List Page)) (q : Page),
      dlookup (add_edges rev k v) q =
        (dlookup rev q).map fun l =>
          if q ∈ v then (if l.contains k then l else l ++ [k]) else l := by
  intro v
  induction v with
  | nil =>
    intro rev q
    simp only [add_edges, List.foldl_nil, List.not_mem_nil, if_false]
    cases dlookup rev q <;> rfl
  | cons p v' ih =>
    intro rev q
    have hstep : add_edges rev k (p :: v') = add_edges (add_edge rev p k) k v' := rfl
    rw [hstep, ih (add_edge rev p k) q, dlookup_add_edge, Option.map_map]
    cases hd : dlookup rev q with
    | none => rfl
    | some l =>
      simp only [Option.map_some', Function.comp_apply]
      congr 1
      by_cases hqp : q = p
      · have hmem : q ∈ p :: v' := by rw [hqp]; exact List.mem_cons_self p v'
        rw [if_pos hqp, if_pos hmem]
        by_cases hqv : q ∈ v'
        · rw [if_pos hqv, addk_idem]
        · rw [if_neg hqv]
      · rw [if_neg hqp]
        by_cases hqv : q ∈ v'
        · have hmem : q ∈ p :: v' := List.mem_cons_of_mem p hqv
          rw [if_pos hqv, if_pos hmem]
        · have hmem : q ∉ p :: v' := by
            intro hm
            rcases List.mem_cons.mp hm with he | hm'
            · exact hqp he
            · exact hqv hm'
          rw [if_neg hqv, if_neg hmem]

/-- Generalized loop invariant for the reverse-index construction: folding
the corpus entries into an accumulator appends, to `q`'s bucket, the keys of
the entries whose link set contains `q`, in order. -/
theorem dlookup_foldl_add_edges :
    ∀ (cs : List (Page × List Page)) (rev : Dict (List Page)) (q : Page)
      (l : List Page),
      dlookup rev q = some l → (cs.map Prod.fst).Nodup →
      (∀ kv ∈ cs, kv.1 ∉ l) →
      dlookup (cs.foldl (fun acc kv => add_edges acc kv.1 kv.2) rev) q =
        some (l ++ (cs.filter fun kv => kv.2.contains q).map Prod.fst) := by
  intro cs
  induction cs with
  | nil =>
    intro rev q l hl _ _
    simpa using hl
  | cons kv cs' ih =>
    intro rev q l hl hnd hnotin
    simp only [List.map_cons, List.nodup_cons] at hnd
    have hkl : kv.1 ∉ l := hnotin kv (List.mem_cons_self kv cs')
    have hcontains : l.contains kv.1 = false := by
      by_contra h
      rw [Bool.not_eq_false] at h
      exact hkl (List.elem_iff.mp h)
    have hl' : dlookup (add_edges rev kv.1 kv.2) q =
        some (if q ∈ kv.2 then l ++ [kv.1] else l) := by
      rw [dlookup_add_edges, hl]
      simp only [Option.map_some', hcontains]
      by_cases hq : q ∈ kv.2 <;> simp [hq]
    rw [List.foldl_cons]
    rw [ih (add_edges rev kv.1 kv.2) q (if q ∈ kv.2 then l ++ [kv.1] else l) hl'
      hnd.2 ?_]
    · by_cases hq : q ∈ kv.2
      · have hqc : kv.2.contains q = true := List.elem_iff.mpr hq
        simp only [if_pos hq, List.filter_cons, hqc, if_true, List.map_cons,
          List.append_assoc, List.singleton_append]
      · have hqc : kv.2.contains q = false := by
          rw [← Bool.not_eq_true]
          exact fun h => hq (List.elem_iff.mp h)
        simp [if_neg hq, List.filter_cons, hqc, hq]
    · intro kv' hkv'
      by_cases hq : q ∈ kv.2
      · rw [if_pos hq]
        intro hmem
        rcases List.mem_append.mp hmem with hm | hm
        · exact hnotin kv' (List.mem_cons_of_mem kv hkv') hm
        · rw [List.mem_singleton] at hm
          exact hnd.1 (hm ▸ List.mem_map_of_mem Prod.fst hkv')
      · rw [if_neg hq]
        exact hnotin kv' (List.mem_cons_of_mem kv hkv')

theorem dlookup_init_sets (corpus : Corpus) (q : Page) :
    dlookup (corpus.map fun kv => (kv.1, ([] : List Page))) q =
      if q ∈ corpus.map Prod.fst then some [] else none := by
  rw [dlookup_map_keyfn (fun _ => ([] : List Page)) corpus q]
  cases hd : dlookup corpus q with
  | none =>
    rw [(dlookup_eq_none corpus q).mp hd |> if_neg]
    rfl
  | some v =>
    have : q ∈ corpus.map Prod.fst :=
      List.mem_map_of_mem Prod.fst (dlookup_mem hd)
    rw [if_pos this]
    rfl

/-- The reverse index, characterized: the bucket of a corpus page `q` holds
exactly the corpus keys whose link set contains `q`, in corpus order. -/
theorem dlookup_build_reverse (corpus : Corpus) (q : Page)
    (hnd : (corpus.map Prod.fst).Nodup) (hq : q ∈ corpus.map Prod.fst) :
    dlookup (build_reverse corpus) q =
      some ((corpus.filter fun kv => kv.2.contains q).map Prod.fst) := by
  rw [build_reverse]
  have hinit : dlookup (corpus.map fun kv => (kv.1, ([] : List Page))) q = some [] := by
    rw [dlookup_init_sets, if_pos hq]
  rw [dlookup_foldl_add_edges corpus _ q [] hinit hnd (by intro kv _; simp)]
  simp

theorem map_fst_add_edge (rev : Dict (List Page)) (page k : Page) :
    (add_edge rev page k).map Prod.fst = rev.map Prod.fst := by
  rw [add_edge, List.map_map]
  apply List.map_congr_left
  intro kv _
  by_cases h : kv.1 = page <;> simp [h]

theorem map_fst_add_edges (k : Page) :
    ∀ (v : List Page) (rev : Dict (List Page)),
      (add_edges rev k v).map Prod.fst = rev.map Prod.fst := by
  intro v
  induction v with
  | nil => intro rev; rfl
  | cons p v' ih =>
    intro rev
    have hstep : add_edges rev k (p :: v') = add_edges (add_edge rev p k) k v' := rfl
    rw [hstep, ih, map_fst_add_edge]

theorem map_fst_build_reverse (corpus : Corpus) :
    (build_reverse corpus).map Prod.fst = corpus.map Prod.fst := by
  rw [build_reverse]
  have : ∀ (cs : List (Page × List Page)) (rev : Dict (List Page)),
      (cs.foldl (fun acc kv => add_edges acc kv.1 kv.2) rev).map Prod.fst =
        rev.map Prod.fst := by
    intro cs
    induction cs with
    | nil => intro rev; rfl
    | cons kv cs' ih =>
      intro rev
      rw [List.foldl_cons, ih, map_fst_add_edges]
  rw [this, List.map_map]
  apply List.map_congr_left
  intro kv _
  rfl

/-! ### Sweep and solver-loop lemmas -/

theorem map_fst_keyfn {β γ : Type} (g : Page → γ) (l : Dict β) :
    (l.map fun kv => ((kv.1 : Page), g kv.1)).map Prod.fst = l.map Prod.fst := by
  rw [List.map_map]
  apply List.map_congr_left
  intro kv _
  rfl

theorem map_fst_value {β γ : Type} (g : β → γ) (l : Dict β) :
    (l.map fun kv => (kv.1, g kv.2)).map Prod.fst = l.map Prod.fst := by
  rw [List.map_map]
  apply List.map_congr_left
  intro kv _
  rfl

/-- Lookup into one sweep's output: the key set is `prev_pagerank`'s, and
the stored value is the update-rule expression for that key. -/
theorem dlookup_sweep (corpus : Corpus) (d : ℚ) (prev : Distribution) (p : Page) :
    dlookup (sweep corpus d prev) p =
      (dlookup prev p).map fun _ =>
        (1 - d) / ((corpus.map Prod.fst).length : ℚ) + d *
          (((dlookup (build_reverse corpus) p).getD []).map fun page =>
            (dlookup prev page).getD 0 /
              (((dlookup corpus page).getD []).length : ℚ)).sum := by
  rw [sweep]
  exact dlookup_map_keyfn
    (fun q =>
      (1 - d) / ((corpus.map Prod.fst).length : ℚ) + d *
        (((dlookup (build_reverse corpus) q).getD []).map fun page =>
          (dlookup prev page).getD 0 /
            (((dlookup corpus page).getD []).length : ℚ)).sum)
    prev p

/-- The update rule, with the reverse index resolved to the pages that link
to `p`: one sweep stores, at corpus page `p`,
`(1-d)/N + d * Σ prev[q] / |outgoing(q)|` over the entries `(q, out)` of the
corpus with `p ∈ out`. -/
theorem dlookup_sweep_formula (corpus : Corpus) (d : ℚ) (prev : Distribution)
    (p : Page) (hWF : corpusWF corpus) (hp : p ∈ corpus.map Prod.fst)
    (hpprev : (dlookup prev p).isSome = true) :
    dlookup (sweep corpus d prev) p =
      some ((1 - d) / (corpus.length : ℚ) + d *
        (((corpus.filter fun kv => kv.2.contains p).map fun kv =>
          (dlookup prev kv.1).getD 0 / ((kv.2.length : ℕ) : ℚ)).sum)) := by
  rw [dlookup_sweep, dlookup_build_reverse corpus p hWF.1 hp]
  cases hd : dlookup prev p with
  | none => rw [hd] at hpprev; simp at hpprev
  | some v =>
    simp only [Option.map_some', Option.getD_some, Option.some_inj,
      List.length_map]
    have hmaps : ((corpus.filter fun kv => kv.2.contains p).map
        ((fun page => (dlookup prev page).getD 0 /
          (((dlookup corpus page).getD []).length : ℚ)) ∘ Prod.fst)) =
        (corpus.filter fun kv => kv.2.contains p).map fun kv =>
          (dlookup prev kv.1).getD 0 / ((kv.2.length : ℕ) : ℚ) := by
      apply List.map_congr_left
      intro kv hkv
      have hmem : kv ∈ corpus := List.mem_of_mem_filter hkv
      have hkv1 : dlookup corpus kv.1 = some kv.2 := mem_dlookup hWF.1 hmem
      simp [hkv1]
    rw [List.map_map, hmaps]

theorem distSum_value_div (l : Distribution) (c : ℚ) :
    distSum (l.map fun kv => (kv.1, kv.2 / c)) = distSum l / c := by
  induction l with
  | nil => simp [distSum]
  | cons kv rest ih =>
    simp only [List.map_cons, distSum, List.sum_cons] at ih ⊢
    rw [ih, add_div]

theorem distSum_renormalize (d : Distribution) (h : distSum d ≠ 0) :
    distSum (renormalize d) = 1 := by
  have hre : renormalize d = d.map fun kv => (kv.1, kv.2 / distSum d) := rfl
  rw [hre, distSum_value_div, div_self h]

theorem distSum_keyconst (corpus : Corpus) (c : ℚ) :
    distSum (corpus.map fun kv => ((kv.1 : Page), c)) = (corpus.length : ℚ) * c := by
  induction corpus with
  | nil => simp [distSum]
  | cons kv rest ih =>
    simp only [List.map_cons, distSum, List.sum_cons, List.length_cons] at ih ⊢
    rw [ih]
    push_cast
    ring

theorem distSum_init (corpus : Corpus) (hc : corpus ≠ []) :
    distSum (init_rank corpus) = 1 := by
  rw [init_rank, distSum_keyconst]
  have hn : (corpus.length : ℚ) ≠ 0 := by
    have := List.length_pos.mpr hc
    exact_mod_cast Nat.pos_iff_ne_zero.mp this
  field_simp

theorem init_rank_values_pos (corpus : Corpus) (hc : corpus ≠ [])
    (v : ℚ) (hv : v ∈ (init_rank corpus).map Prod.snd) : 0 < v := by
  rw [init_rank, List.map_map] at hv
  rcases List.mem_map.mp hv with ⟨kv, _, hkv⟩
  have hn : (0 : ℚ) < (corpus.length : ℚ) := by
    exact_mod_cast List.length_pos.mpr hc
  rw [← hkv]
  simp only [Function.comp_apply]
  positivity

/-- Every value stored by a sweep is at least the teleport mass
`(1-d)/N > 0`, provided the previous table's values are non-negative. -/
theorem sweep_values_pos (corpus : Corpus) (d : ℚ) (prev : Distribution)
    (hd0 : 0 ≤ d) (hd1 : d < 1) (hc : corpus ≠ [])
    (hprev : ∀ v ∈ prev.map Prod.snd, 0 ≤ v) :
    ∀ v ∈ (sweep corpus d prev).map Prod.snd, 0 < v := by
  intro v hv
  rw [sweep] at hv
  simp only [List.map_map] at hv
  rcases List.mem_map.mp hv with ⟨kv, _, hkv⟩
  have hN : (0 : ℚ) < ((corpus.map Prod.fst).length : ℚ) := by
    rw [List.length_map]
    exact_mod_cast List.length_pos.mpr hc
  have hrv : 0 < (1 - d) / ((corpus.map Prod.fst).length : ℚ) :=
    div_pos (by linarith) hN
  have htmp : 0 ≤ (((dlookup (build_reverse corpus) kv.1).getD []).map fun page =>
      (dlookup prev page).getD 0 /
        (((dlookup corpus page).getD []).length : ℚ)).sum := by
    apply List.sum_nonneg
    intro t ht
    rcases List.mem_map.mp ht with ⟨page, _, hpage⟩
    rw [← hpage]
    apply div_nonneg
    · cases hd : dlookup prev page with
      | none => simp
      | some w =>
        simp only [Option.getD_some]
        exact hprev w (List.mem_map_of_mem Prod.snd (dlookup_mem hd))
    · positivity
  rw [← hkv]
  simp only [Function.comp_apply]
  nlinarith

theorem renormalize_values_pos (d : Distribution)
    (hpos : ∀ v ∈ d.map Prod.snd, 0 < v) (hne : d ≠ []) :
    ∀ v ∈ (renormalize d).map Prod.snd, 0 < v := by
  intro v hv
  have hsum : 0 < distSum d := by
    rw [distSum]
    apply List.sum_pos
    · exact hpos
    · intro h
      exact hne (List.map_eq_nil_iff.mp h)
  rw [renormalize] at hv
  simp only [List.map_map] at hv
  rcases List.mem_map.mp hv with ⟨kv, hkv_mem, hkv⟩
  rw [← hkv]
  simp only [Function.comp_apply]
  exact div_pos (hpos kv.2 (List.mem_map_of_mem Prod.snd hkv_mem)) hsum

/-- Whatever table the solver loop hands back satisfies the convergence
test against one more (renormalized) sweep from it: the loop only stops by
`break`, and the `break` is guarded by `is_converged`. -/
theorem iterate_aux_stops (corpus : Corpus) (d : ℚ) :
    ∀ (fuel : ℕ) (prev r : Distribution),
      iterate_aux corpus d fuel prev = some r →
      is_converged r (renormalize (sweep corpus d r)) = true := by
  intro fuel
  induction fuel with
  | zero => intro prev r h; exact absurd h (by simp [iterate_aux])
  | succ fuel ih =>
    intro prev r h
    rw [iterate_aux] at h
    by_cases hconv :
        is_converged prev (renormalize (sweep corpus d prev)) = true
    · simp only [hconv, if_true] at h
      have hpr : prev = r := Option.some_inj.mp h
      rw [← hpr]
      exact hconv
    · simp only [hconv, if_false] at h
      exact ih _ r h

/-- Loop invariant of `iterate_pagerank`: every table the loop's state
passes through is non-empty, positive, and of total mass exactly 1, so in
particular the returned table sums to 1. -/
theorem iterate_aux_sum_one (corpus : Corpus) (d : ℚ) (hd0 : 0 ≤ d) (hd1 : d < 1)
    (hc : corpus ≠ []) :
    ∀ (fuel : ℕ) (prev r : Distribution), prev ≠ [] →
      (∀ v ∈ prev.map Prod.snd, 0 < v) → distSum prev = 1 →
      iterate_aux corpus d fuel prev = some r → distSum r = 1 := by
  intro fuel
  induction fuel with
  | zero => intro prev r _ _ _ h; exact absurd h (by simp [iterate_aux])
  | succ fuel ih =>
    intro prev r hne hpos hsum h
    rw [iterate_aux] at h
    by_cases hconv :
        is_converged prev (renormalize (sweep corpus d prev)) = true
    · simp only [hconv, if_true] at h
      rw [← Option.some_inj.mp h]
      exact hsum
    · simp only [hconv, if_false] at h
      have hswne : sweep corpus d prev ≠ [] := by
        rw [sweep]
        simp only [ne_eq, List.map_eq_nil_iff]
        exact hne
      have hswpos := sweep_values_pos corpus d prev hd0 hd1 hc
        fun v hv => le_of_lt (hpos v hv)
      have hswsum : distSum (sweep corpus d prev) ≠ 0 := by
        apply ne_of_gt
        rw [distSum]
        exact List.sum_pos _ hswpos
          fun habs => hswne (List.map_eq_nil_iff.mp habs)
      refine ih (renormalize (sweep corpus d prev)) r ?_ ?_ ?_ h
      · rw [renormalize]
        simp only [ne_eq, List.map_eq_nil_iff]
        exact hswne
      · exact renormalize_values_pos _ hswpos hswne
      · exact distSum_renormalize _ hswsum

theorem walk_length (corpus : Corpus) (d : ℚ) :
    ∀ (xs : List ℚ) (page : Page) (visits : List Page),
      walk corpus d page xs = some visits → visits.length = xs.length := by
  intro xs
  induction xs with
  | nil =>
    intro page visits h
    rw [walk] at h
    rw [← Option.some_inj.mp h]
    rfl
  | cons x xs ih =>
    intro page visits h
    rw [walk] at h
    cases hc : choice ((transition_model corpus page d).map Prod.fst)
        ((transition_model corpus page d).map Prod.snd) x with
    | none => simp only [hc] at h; exact absurd h (by simp)
    | some next =>
      simp only [hc] at h
      cases hw : walk corpus d next xs with
      | none => simp only [hw] at h; exact absurd h (by simp)
      | some vs =>
        simp only [hw] at h
        rw [← Option.some_inj.mp h]
        simp [ih next vs hw]

/-- General lookup into `transition_model`'s output: direct links carry
`d/|L| + (1-d)/N`, the other corpus pages carry `0 + (1-d)/N`, and pages
outside the corpus have no entry. -/
theorem dlookup_transition (corpus : Corpus) (page : Page) (d : ℚ) (q : Page) :
    dlookup (transition_model corpus page d) q =
      (if q ∈ (dlookup corpus page).getD [] then
        some (d / ((((dlookup corpus page).getD []).length : ℕ) : ℚ) +
          (1 - d) / (((corpus.map Prod.fst).length : ℕ) : ℚ))
      else if q ∈ corpus.map Prod.fst then
        some (0 + (1 - d) / (((corpus.map Prod.fst).length : ℕ) : ℚ))
      else none) := by
  simp only [transition_model_eq]
  rw [dlookup_map_value
    (fun v => v + (1 - d) / (((corpus.map Prod.fst).length : ℕ) : ℚ))]
  rw [dlookup_append, dlookup_const_pairs, dlookup_const_pairs]
  by_cases hqL : q ∈ (dlookup corpus page).getD []
  · simp [hqL]
  · simp only [hqL, if_false]
    by_cases hqK : q ∈ corpus.map Prod.fst
    · have hcont : ((dlookup corpus page).getD []).contains q = false := by
        rw [← Bool.not_eq_true]
        exact fun hcon => hqL (List.elem_iff.mp hcon)
      have hrest : q ∈ (corpus.map Prod.fst).filter
          (fun p => !(((dlookup corpus page).getD []).contains p)) := by
        rw [List.mem_filter]
        exact ⟨hqK, by rw [hcont]; rfl⟩
      simp [hrest, hqK, hqL]
    · have hrest : q ∉ (corpus.map Prod.fst).filter
          (fun p => !(((dlookup corpus page).getD []).contains p)) :=
        fun hmem => hqK (List.mem_of_mem_filter hmem)
      simp [hrest, hqK]

/-! ### Claims -/

/-- C1: the claim says a dangling page yields the uniform distribution
`1/N` over all corpus pages.  The guard `direct_links == {}` compares a set
against the empty dict and is always false, so the teleport branch is dead:
on the corpus `{a: {}, b: {a}}` (page `a` dangling, `N = 2`,
damping `17/20`) the code gives every page only `(1-d)/N = 3/40` instead of
the uniform `1/2`. -/
theorem transition_dangling_eval :
    transition_model [("a", []), ("b", ["a"])] "a" (17 / 20) =
      [("a", 3 / 40), ("b", 3 / 40)] ∧
    transition_model [("a", []), ("b", ["a"])] "a" (17 / 20) ≠
      [("a", 1 / 2), ("b", 1 / 2)] := by
  constructor <;> norm_num [transition_model, set_eq_empty_dict, dlookup]

/-- C2: the claim says the returned distribution always sums to 1 (within
1e-9), including for dangling pages.  Because the dangling branch is dead,
on `{a: {}, b: {a}}` with damping `17/20` the weights sum to
`1 - d = 3/20`, not 1. -/
theorem transition_dangling_sum_eval :
    distSum (transition_model [("a", []), ("b", ["a"])] "a" (17 / 20)) = 3 / 20 ∧
    distSum (transition_model [("a", []), ("b", ["a"])] "a" (17 / 20)) ≠ 1 := by
  constructor <;> norm_num [transition_model, set_eq_empty_dict, dlookup, distSum]

/-- C3 counterexample: `choice` does not clamp the bisection index.  With
population `["a"]` and weights `[1]` the cumulative list is `[1]`; a draw
equal to that last cumulative value makes `bisect` return the out-of-range
index 1 and the lookup fails (`none`, Python `IndexError`) instead of
clamping to the last valid index (which would give `some "a"`, as the draw
`1/2` does). -/
theorem choice_no_clamp_counterexample :
    choice ["a"] [1] 1 = none ∧ choice ["a"] [1] (1 / 2) = some "a" := by
  constructor <;> norm_num [choice, cdf, cdf_go, bisect, bisect_loop]

/-- C3 (amended): for equal-length population/weights with positive weight
total, `choice` returns an element of the population for every draw
strictly below the last cumulative value — in exact arithmetic that value
is `total/total = 1`, so every `x ∈ [0,1)` is safe.  No clamping is
performed; a draw at or past the last cumulative value would index out of
bounds (see the counterexample). -/
theorem choice_safe_amended (population : List Page) (weights : List ℚ) (x : ℚ)
    (hlen : population.length = weights.length) (hsum : 0 < weights.sum)
    (_hx0 : 0 ≤ x) (hx1 : x < 1) :
    ∃ r, choice population weights x = some r ∧ r ∈ population :=
  choice_some_mem population weights x hlen (ne_of_gt hsum) hx1

/-- C3 witness: the amended safety statement at a concrete input. -/
theorem choice_safe_amended_witness :
    ∃ r, choice ["p", "q"] [3, 1] 0 = some r ∧ r ∈ ["p", "q"] :=
  choice_safe_amended ["p", "q"] [3, 1] 0 (by decide) (by norm_num) (by norm_num)
    (by norm_num)

/-- C9: the sampler fails (`none`: the `assert`, a `ZeroDivisionError`, or
an out-of-range index) when the lengths differ or the weight total is zero,
and succeeds — returning a population element — for equal lengths, positive
total, and a draw in `[0,1)`. -/
theorem choice_failure_modes (population : List Page) (weights : List ℚ) (x : ℚ) :
    (population.length ≠ weights.length → choice population weights x = none) ∧
    (weights.sum = 0 → choice population weights x = none) ∧
    (population.length = weights.length → 0 < weights.sum → 0 ≤ x → x < 1 →
      ∃ r, choice population weights x = some r ∧ r ∈ population) :=
  ⟨fun h => choice_none_of_length population weights x h,
   fun h => choice_none_of_zero_sum population weights x h,
   fun hlen hsum _ hx1 =>
     choice_some_mem population weights x hlen (ne_of_gt hsum) hx1⟩

/-- C9 witness: all three failure/success modes at concrete inputs. -/
theorem choice_failure_modes_witness :
    choice ["a"] [1, 1] (1 / 2) = none ∧
    choice ["a", "b"] [0, 0] (1 / 2) = none ∧
    ∃ r, choice ["a", "b"] [1, 1] (1 / 2) = some r ∧ r ∈ ["a", "b"] :=
  ⟨(choice_failure_modes ["a"] [1, 1] (1 / 2)).1 (by decide),
   (choice_failure_modes ["a", "b"] [0, 0] (1 / 2)).2.1 (by norm_num),
   (choice_failure_modes ["a", "b"] [1, 1] (1 / 2)).2.2 (by decide) (by norm_num)
     (by norm_num) (by norm_num)⟩

/-- C6: from a page with non-empty link set `L`, every page in `L` gets
weight `d/|L| + (1-d)/N` and every other corpus page gets `(1-d)/N`,
`N` being the number of corpus pages. -/
theorem transition_linked_weights (corpus : Corpus) (page : Page) (d : ℚ)
    (L : List Page) (_hd0 : 0 < d) (_hd1 : d < 1)
    (hL : dlookup corpus page = some L) (_hne : L ≠ []) :
    (∀ q ∈ L, dlookup (transition_model corpus page d) q =
      some (d / ((L.length : ℕ) : ℚ) + (1 - d) / ((corpus.length : ℕ) : ℚ))) ∧
    (∀ q, q ∈ corpus.map Prod.fst → q ∉ L →
      dlookup (transition_model corpus page d) q =
        some ((1 - d) / ((corpus.length : ℕ) : ℚ))) := by
  have hgetD : (dlookup corpus page).getD [] = L := by rw [hL]; rfl
  constructor
  · intro q hq
    rw [dlookup_transition, hgetD, if_pos hq, List.length_map]
  · intro q hqK hqL
    rw [dlookup_transition, hgetD, if_neg hqL, if_pos hqK, List.length_map,
      zero_add]

/-- C6 witness: on `{a: {b}, b: {a}}` with damping `17/20`, the linked page
`b` gets `17/20 + 3/40` and the unlinked page `a` gets `3/40`. -/
theorem transition_linked_weights_witness :
    dlookup (transition_model [("a", ["b"]), ("b", ["a"])] "a" (17 / 20)) "b" =
      some ((17 / 20) / (((["b"] : List Page).length : ℕ) : ℚ) +
        (1 - 17 / 20) / ((([("a", ["b"]), ("b", ["a"])] : Corpus).length : ℕ) : ℚ)) ∧
    dlookup (transition_model [("a", ["b"]), ("b", ["a"])] "a" (17 / 20)) "a" =
      some ((1 - 17 / 20) / ((([("a", ["b"]), ("b", ["a"])] : Corpus).length : ℕ) : ℚ)) := by
  have h := transition_linked_weights [("a", ["b"]), ("b", ["a"])] "a" (17 / 20)
    ["b"] (by norm_num) (by norm_num) (by decide) (by decide)
  exact ⟨h.1 "b" (by decide), h.2 "a" (by decide) (by decide)⟩

/-- C4: whatever table `iterate_pagerank` returns (when the loop
terminates, i.e. within the given fuel) satisfies the convergence test: one
more renormalized sweep from the returned table changes every entry by at
most `EPSILON`.  The loop repeats the sweep until `is_converged` holds and
then stops, returning the current table. -/
theorem iterate_stops_converged (corpus : Corpus) (d : ℚ) (fuel : ℕ)
    (r : Distribution) (h : iterate_pagerank corpus d fuel = some r) :
    is_converged r (renormalize (sweep corpus d r)) = true :=
  iterate_aux_stops corpus d fuel (init_rank corpus) r h

/-- Evaluation of the solver on the self-loop corpus `{a: {a}}`: one sweep
fixes the table `{a: 1}`, so the loop stops immediately. -/
theorem iterate_selfloop_eval :
    iterate_pagerank [("a", ["a"])] (17 / 20) 1 = some [("a", (1 : ℚ))] := by
  have hinit : init_rank [("a", ["a"])] = [("a", (1 : ℚ))] := by
    norm_num [init_rank]
  have hsw : sweep [("a", ["a"])] (17 / 20) [("a", (1 : ℚ))] = [("a", (1 : ℚ))] := by
    norm_num [sweep, build_reverse, add_edges, add_edge, dlookup]
  have hre : renormalize [("a", (1 : ℚ))] = [("a", (1 : ℚ))] := by
    norm_num [renormalize, distSum]
  have hconv : is_converged [("a", (1 : ℚ))] [("a", (1 : ℚ))] = true := by
    norm_num [is_converged, dlookup, EPSILON]
  rw [iterate_pagerank, hinit, iterate_aux, hsw, hre, hconv]
  simp

/-- C4 witness: the solver's output on `{a: {a}}` passes the convergence
test. -/
theorem iterate_stops_converged_witness :
    is_converged [("a", (1 : ℚ))]
      (renormalize (sweep [("a", ["a"])] (17 / 20) [("a", (1 : ℚ))])) = true :=
  iterate_stops_converged [("a", ["a"])] (17 / 20) 1 [("a", (1 : ℚ))]
    iterate_selfloop_eval

/-- C5: in a sweep, the table stores, at each corpus page `p` carried by
the previous table, exactly `(1-d)/N + d * Σ prev[q]/|outgoing(q)|` summed
over the corpus entries `(q, out)` with `p ∈ out` (the pages that link to
`p`); and a dangling page (empty link set) is a member of no reverse-index
bucket, so it contributes to no page's new rank. -/
theorem sweep_update_rule (corpus : Corpus) (d : ℚ) (prev : Distribution)
    (hWF : corpusWF corpus) :
    (∀ p, p ∈ corpus.map Prod.fst → (dlookup prev p).isSome = true →
      dlookup (sweep corpus d prev) p =
        some ((1 - d) / ((corpus.length : ℕ) : ℚ) + d *
          (((corpus.filter fun kv => kv.2.contains p).map fun kv =>
            (dlookup prev kv.1).getD 0 / ((kv.2.length : ℕ) : ℚ)).sum))) ∧
    (∀ q, dlookup corpus q = some [] →
      ∀ p l, dlookup (build_reverse corpus) p = some l → q ∉ l) := by
  constructor
  · intro p hp hprev
    exact dlookup_sweep_formula corpus d prev p hWF hp hprev
  · intro q hq p l hl hmem
    have hpk : p ∈ corpus.map Prod.fst := by
      by_contra hpk
      have hnone : dlookup (build_reverse corpus) p = none := by
        rw [dlookup_eq_none, map_fst_build_reverse]
        exact hpk
      rw [hnone] at hl
      exact absurd hl (by simp)
    rw [dlookup_build_reverse corpus p hWF.1 hpk] at hl
    have hleq : l = (corpus.filter fun kv => kv.2.contains p).map Prod.fst :=
      (Option.some_inj.mp hl).symm
    rw [hleq] at hmem
    rcases List.mem_map.mp hmem with ⟨kv, hkvf, hkv1⟩
    have hkvc : kv ∈ corpus := List.mem_of_mem_filter hkvf
    have hcont : kv.2.contains p = true := (List.mem_filter.mp hkvf).2
    have hlk : dlookup corpus kv.1 = some kv.2 := mem_dlookup hWF.1 hkvc
    rw [hkv1, hq] at hlk
    have hnil : kv.2 = [] := Option.some_inj.mp hlk.symm
    rw [hnil] at hcont
    simp [List.contains] at hcont

/-- C5 witness: on the dangling corpus `{a: {}, b: {a}}`, the sweep value
at `b` and the absence of the dangling page `a` from `a`'s reverse bucket. -/
theorem sweep_update_rule_witness :
    dlookup (sweep [("a", []), ("b", ["a"])] (17 / 20)
        [("a", (1 : ℚ) / 2), ("b", (1 : ℚ) / 2)]) "b" =
      some ((1 - 17 / 20) / ((([("a", []), ("b", ["a"])] : Corpus).length : ℕ) : ℚ) +
        (17 / 20) *
          (((([("a", []), ("b", ["a"])] : Corpus).filter
              fun kv => kv.2.contains "b").map fun kv =>
            (dlookup [("a", (1 : ℚ) / 2), ("b", (1 : ℚ) / 2)] kv.1).getD 0 /
              ((kv.2.length : ℕ) : ℚ)).sum)) ∧
    "a" ∉ (["b"] : List Page) := by
  have h := sweep_update_rule [("a", []), ("b", ["a"])] (17 / 20)
    [("a", (1 : ℚ) / 2), ("b", (1 : ℚ) / 2)] (by decide)
  exact ⟨h.1 "b" (by decide) (by decide),
    h.2 "a" (by decide) "a" ["b"] (by decide)⟩

/-- C10: under the corpus invariant, every page in a reverse-index bucket
is a corpus key with a non-empty outgoing set, so the divisor
`len(corpus[page])` in the sweep is never zero. -/
theorem reverse_no_dangling_divisor (corpus : Corpus) (hWF : corpusWF corpus) :
    ∀ p l, dlookup (build_reverse corpus) p = some l →
      ∀ q ∈ l, ∃ out, dlookup corpus q = some out ∧ out ≠ [] ∧
        (((dlookup corpus q).getD []).length : ℚ) ≠ 0 := by
  intro p l hl q hq
  have hpk : p ∈ corpus.map Prod.fst := by
    by_contra hpk
    have hnone : dlookup (build_reverse corpus) p = none := by
      rw [dlookup_eq_none, map_fst_build_reverse]
      exact hpk
    rw [hnone] at hl
    exact absurd hl (by simp)
  rw [dlookup_build_reverse corpus p hWF.1 hpk] at hl
  have hleq : l = (corpus.filter fun kv => kv.2.contains p).map Prod.fst :=
    (Option.some_inj.mp hl).symm
  rw [hleq] at hq
  rcases List.mem_map.mp hq with ⟨kv, hkvf, hkv1⟩
  have hkvc : kv ∈ corpus := List.mem_of_mem_filter hkvf
  have hcont : kv.2.contains p = true := (List.mem_filter.mp hkvf).2
  have hlk : dlookup corpus kv.1 = some kv.2 := mem_dlookup hWF.1 hkvc
  rw [hkv1] at hlk
  have hnnil : kv.2 ≠ [] := by
    intro he
    rw [he] at hcont
    simp [List.contains] at hcont
  refine ⟨kv.2, hlk, hnnil, ?_⟩
  rw [hlk]
  simp only [Option.getD_some]
  have hlen : kv.2.length ≠ 0 := fun hz => hnnil (List.length_eq_zero.mp hz)
  exact_mod_cast hlen

/-- C10 witness: in `{a: {}, b: {a}}` the reverse bucket of `a` is `{b}`,
and `b` indeed has the non-empty outgoing set `{a}`. -/
theorem reverse_no_dangling_divisor_witness :
    ∃ out, dlookup ([("a", []), ("b", ["a"])] : Corpus) "b" = some out ∧
      out ≠ [] ∧
      (((dlookup ([("a", []), ("b", ["a"])] : Corpus) "b").getD []).length : ℚ) ≠ 0 :=
  reverse_no_dangling_divisor [("a", []), ("b", ["a"])] (by decide) "a" ["b"]
    (by decide) "b" (by decide)

/-- C7: with valid damping and a non-empty corpus, the sampling loop
performs exactly `n = |xs|` draws (the walk yields one page per draw), the
counter counts only drawn pages (the starting page's initial position is
not an entry unless it is drawn), and the returned table maps exactly the
pages drawn at least once to `count / n`, with never-drawn pages absent. -/
theorem sample_counts_spec (corpus : Corpus) (d : ℚ) (start : Page)
    (xs : List ℚ) (n : ℕ) (hd0 : 0 < d) (hd1 : d < 1) (hc : corpus ≠ [])
    (_hstart : start ∈ corpus.map Prod.fst) (hn : xs.length = n) (_hn1 : 1 ≤ n)
    (hx : ∀ x ∈ xs, 0 ≤ x ∧ x < 1) :
    ∃ visits t, walk corpus d start xs = some visits ∧ visits.length = n ∧
      sample_pagerank corpus d start xs = some t ∧
      ∀ p, dlookup t p =
        if 0 < visits.count p then some ((visits.count p : ℚ) / (n : ℚ))
        else none := by
  obtain ⟨visits, hw, hlen⟩ := walk_some corpus d hd0 hd1 hc xs start
    fun x hxm => (hx x hxm).2
  refine ⟨visits,
    (visits.foldl bump []).map fun kv => (kv.1, (kv.2 : ℚ) / (xs.length : ℚ)),
    hw, by rw [hlen, hn], ?_, ?_⟩
  · rw [sample_pagerank]
    simp only [hw]
  · intro p
    rw [dlookup_map_value (fun c : ℕ => (c : ℚ) / (xs.length : ℚ)), dlookup_counts,
      hn]
    by_cases hmem : p ∈ visits
    · rw [if_pos hmem, if_pos (List.count_pos_iff.mpr hmem)]
      rfl
    · rw [if_neg hmem,
        if_neg (fun hcnt => hmem (List.count_pos_iff.mp hcnt))]
      rfl

/-- Evaluation of the sampler on the self-loop corpus `{a: {a}}` with two
draws: both draws land on `a`, so the table is `{a: 2/2 = 1}`. -/
theorem sample_selfloop_eval :
    sample_pagerank [("a", ["a"])] (17 / 20) "a" [0, 1 / 2] =
      some [("a", (1 : ℚ))] := by
  have htm : transition_model [("a", ["a"])] "a" (17 / 20) = [("a", (1 : ℚ))] := by
    norm_num [transition_model, set_eq_empty_dict, dlookup]
  have hch0 : choice ["a"] [1] 0 = some "a" := by
    norm_num [choice, cdf, cdf_go, bisect, bisect_loop]
  have hch2 : choice ["a"] [1] (1 / 2) = some "a" := by
    norm_num [choice, cdf, cdf_go, bisect, bisect_loop]
  have hwalk : walk [("a", ["a"])] (17 / 20) "a" [0, 1 / 2] = some ["a", "a"] := by
    simp only [walk, htm, List.map_cons, List.map_nil, hch0, hch2]
  rw [sample_pagerank, hwalk]
  norm_num [bump]

/-- C7 witness: the counting specification at the self-loop corpus with two
draws. -/
theorem sample_counts_spec_witness :
    ∃ visits t, walk [("a", ["a"])] (17 / 20) "a" [0, 1 / 2] = some visits ∧
      visits.length = 2 ∧
      sample_pagerank [("a", ["a"])] (17 / 20) "a" [0, 1 / 2] = some t ∧
      ∀ p, dlookup t p =
        if 0 < visits.count p then some ((visits.count p : ℚ) / ((2 : ℕ) : ℚ))
        else none :=
  sample_counts_spec [("a", ["a"])] (17 / 20) "a" [0, 1 / 2] 2 (by norm_num)
    (by norm_num) (by decide) (by decide) (by decide) (by decide) (by norm_num)

/-- C8: both estimators hand back tables of total mass exactly 1 (in exact
arithmetic): the sampler's counts add up to `n` and are each divided by
`n`, and the solver returns either the uniform initial table or a
renormalized table. -/
theorem ranktables_sum_one (corpus : Corpus) (d : ℚ) (hd0 : 0 < d)
    (hd1 : d < 1) (hc : corpus ≠ []) :
    (∀ (start : Page) (xs : List ℚ) (t : Distribution), xs ≠ [] →
      sample_pagerank corpus d start xs = some t → distSum t = 1) ∧
    (∀ (fuel : ℕ) (r : Distribution), iterate_pagerank corpus d fuel = some r →
      distSum r = 1) := by
  constructor
  · intro start xs t hxs hs
    rw [sample_pagerank] at hs
    cases hw : walk corpus d start xs with
    | none => rw [hw] at hs; exact absurd hs (by simp)
    | some visits =>
      rw [hw] at hs
      simp only [] at hs
      rw [← Option.some_inj.mp hs, distSum_counts_div,
        sumN_foldl_bump visits [] (by simp)]
      have hz : sumN ([] : Dict ℕ) = 0 := rfl
      rw [hz, zero_add, walk_length corpus d xs start visits hw]
      have hxlen : ((xs.length : ℕ) : ℚ) ≠ 0 := by
        have hne : xs.length ≠ 0 := fun h => hxs (List.length_eq_zero.mp h)
        exact_mod_cast hne
      exact div_self hxlen
  · intro fuel r h
    rw [iterate_pagerank] at h
    refine iterate_aux_sum_one corpus d (le_of_lt hd0) hd1 hc fuel
      (init_rank corpus) r ?_ ?_ ?_ h
    · rw [init_rank]
      simp only [ne_eq, List.map_eq_nil_iff]
      exact hc
    · exact fun v hv => init_rank_values_pos corpus hc v hv
    · exact distSum_init corpus hc

/-- C8 witness: both estimators on the self-loop corpus return the table
`{a: 1}`, whose mass is 1. -/
theorem ranktables_sum_one_witness :
    distSum [("a", (1 : ℚ))] = 1 ∧ distSum [("a", (1 : ℚ))] = 1 :=
  ⟨(ranktables_sum_one [("a", ["a"])] (17 / 20) (by norm_num) (by norm_num)
      (by decide)).1 "a" [0, 1 / 2] [("a", (1 : ℚ))] (by decide)
      sample_selfloop_eval,
   (ranktables_sum_one [("a", ["a"])] (17 / 20) (by norm_num) (by norm_num)
      (by decide)).2 1 [("a", (1 : ℚ))] iterate_selfloop_eval⟩
